import Mathlib

/-!
# GRAPL: verification of the causal-identification core

Shallow embedding of the GRAPL library (acyclic directed mixed graphs for
structural causal modelling).  The repository's checked-in files contain the
tutorial notebooks (with recorded outputs) but not the Python modules
`grapl/admg.py`, `grapl/algorithms.py`, `grapl/eqn.py`; following the
specification, the graph model, graph algorithms, expression algebra and
identification engine are modelled here from the spec's words, and the
tutorial notebooks' recorded inputs and outputs are used as concrete test
points for the model.
-/

namespace Grapl

/-- Modelled from the spec: the ADMG graph model (`grapl/admg.py` is not in
the repository's files).  `vars` is the node list (node = opaque string
label; insertion order kept), `dir` the directed edges as (parent, child)
pairs, `bid` the bidirected edges as unordered pairs stored as given. -/
structure ADMG where
  vars : List String
  dir : List (String × String)
  bid : List (String × String)
deriving DecidableEq

/-- Well-formed ADMG: every edge endpoint is a declared node, the node list
has no duplicates, and no bidirected self-loops. -/
def WF (G : ADMG) : Prop :=
  G.vars.Nodup ∧
  (∀ e ∈ G.dir, e.1 ∈ G.vars ∧ e.2 ∈ G.vars) ∧
  (∀ e ∈ G.bid, e.1 ∈ G.vars ∧ e.2 ∈ G.vars ∧ e.1 ≠ e.2)

instance (G : ADMG) : Decidable (WF G) := by
  unfold WF; infer_instance

/-- Parents of a single node: sources of directed edges into it. -/
def pa (G : ADMG) (v : String) : List String :=
  (G.dir.filter (fun e => e.2 == v)).map (fun e => e.1)

/-- Children of a single node: targets of directed edges out of it. -/
def ch (G : ADMG) (v : String) : List String :=
  (G.dir.filter (fun e => e.1 == v)).map (fun e => e.2)

/-- Modelled from the spec: one frontier-expansion step of the ancestor
closure — add every node with a directed edge into the current set. -/
def anStep (G : ADMG) (T : List String) : List String :=
  T ++ G.vars.filter (fun p => !(T.contains p) && G.dir.any (fun e => e.1 == p && T.contains e.2))

/-- Modelled from the spec: one frontier-expansion step of the descendant
closure — add every node with a directed edge from the current set. -/
def deStep (G : ADMG) (T : List String) : List String :=
  T ++ G.vars.filter (fun c => !(T.contains c) && G.dir.any (fun e => e.2 == c && T.contains e.1))

/-- Iterate a closure step a fixed number of times. -/
def closeIter (f : List String → List String) : Nat → List String → List String
  | 0, T => T
  | n + 1, T => closeIter f n (f T)

/-- Modelled from the spec: `an(S)`, the reflexive-transitive ancestor
closure of a node set, computed by iterated frontier expansion (the node
count bounds the number of rounds needed, so termination does not depend on
acyclicity). -/
def an (G : ADMG) (S : List String) : List String :=
  closeIter (anStep G) G.vars.length S

/-- Modelled from the spec: `de(S)`, the reflexive-transitive descendant
closure of a node set. -/
def de (G : ADMG) (S : List String) : List String :=
  closeIter (deStep G) G.vars.length S

/-- A node has no parent inside the remaining node list. -/
def noParentIn (G : ADMG) (rem : List String) (v : String) : Bool :=
  !(G.dir.any (fun e => e.2 == v && rem.contains e.1))

/-- The first remaining node with no remaining parent, if any. -/
def firstSource (G : ADMG) (rem : List String) : Option String :=
  rem.find? (noParentIn G rem)

/-- Modelled from the spec: Kahn-style topological sort worker — repeatedly
emit the first node (in stored order, for determinism) whose parents have
all been emitted; report failure (`none`) if none exists while nodes
remain. -/
def kahnAux (G : ADMG) : Nat → List String → Option (List String)
  | 0, rem => if rem.isEmpty then some [] else none
  | n + 1, rem =>
    if rem.isEmpty then some [] else
      match firstSource G rem with
      | none => none
      | some v => (kahnAux G n (rem.erase v)).map (fun l => v :: l)

/-- Modelled from the spec: `topsort()` — one valid total order consistent
with the directed edges, or `none` when a cycle is detected. -/
def topsort (G : ADMG) : Option (List String) :=
  kahnAux G G.vars.length G.vars

/-- Modelled from the spec: `isdag()` — true iff the directed-edge subgraph
has no cycle (detected by Kahn's algorithm running to completion). -/
def isdag (G : ADMG) : Bool :=
  (topsort G).isSome

/-- The 3-node back-door DAG of tutorial 01 and spec scenario 1:
`C -> X; C -> Y; X -> Y`. -/
def backdoorG : ADMG :=
  ⟨["C", "X", "Y"], [("C", "X"), ("C", "Y"), ("X", "Y")], []⟩

/-- The 5-node Symptoms DAG of tutorial 02 and spec scenario 2:
`Sinus -> Nose; Flu -> Sinus; Sinus -> Headache; Allergy -> Sinus`. -/
def symptomsG : ADMG :=
  ⟨["Sinus", "Headache", "Nose", "Flu", "Allergy"],
   [("Sinus", "Nose"), ("Flu", "Sinus"), ("Sinus", "Headache"), ("Allergy", "Sinus")], []⟩

/-- The 4-node ADMG of tutorial 06 and spec scenario 3:
`U -> Y; Y -> Z; U -> Z; Z -> X; X <-> Y`. -/
def admg6G : ADMG :=
  ⟨["Y", "X", "U", "Z"],
   [("U", "Y"), ("Y", "Z"), ("U", "Z"), ("Z", "X")],
   [("X", "Y")]⟩

/-- The 2-node bow ADMG `X0 -> Y0; X0 <-> Y0`, the classic
non-identifiable cause-effect query. -/
def bowG : ADMG :=
  ⟨["X0", "Y0"], [("X0", "Y0")], [("X0", "Y0")]⟩

mutual
/-- Modelled from the spec: the expression tree (`grapl/eqn.py` is not in
the repository's files) — three node kinds: Factor leaf
`p(target-set | conditioning-set)`, Product (ordered sequence of
sub-expressions, insertion order kept for display determinism), and Sum
(marginalization over a variable set). -/
inductive Expr where
  | factor (t : List String) (c : List String)
  | prod (es : ExprList)
  | sum (vs : List String) (e : Expr)
/-- The ordered sequence of sub-expressions of a Product node. -/
inductive ExprList where
  | nil
  | cons (e : Expr) (tl : ExprList)
end

mutual
/-- Structural size of an expression (counts tree nodes). -/
def Expr.size : Expr → Nat
  | .factor _ _ => 1
  | .sum _ e => 1 + e.size
  | .prod es => 1 + es.size
/-- Structural size of an expression sequence. -/
def ExprList.size : ExprList → Nat
  | .nil => 0
  | .cons e tl => e.size + tl.size
end

mutual
/-- Does a variable occur anywhere in an expression (as factor target,
factor conditioner, or summation variable)? -/
def Expr.hasVar (v : String) : Expr → Bool
  | .factor t c => t.contains v || c.contains v
  | .sum vs e => vs.contains v || e.hasVar v
  | .prod es => es.hasVarL v
/-- Does a variable occur anywhere in an expression sequence? -/
def ExprList.hasVarL (v : String) : ExprList → Bool
  | .nil => false
  | .cons e tl => e.hasVar v || tl.hasVarL v
end

mutual
/-- All factor leaves of an expression as (target, conditioning) pairs. -/
def Expr.factorSets : Expr → List (List String × List String)
  | .factor t c => [(t, c)]
  | .sum _ e => e.factorSets
  | .prod es => es.factorSetsL
/-- All factor leaves of an expression sequence. -/
def ExprList.factorSetsL : ExprList → List (List String × List String)
  | .nil => []
  | .cons e tl => e.factorSets ++ tl.factorSetsL
end

mutual
/-- All variables bound by Sum (marginalization) operators anywhere in an
expression. -/
def Expr.sumVars : Expr → List String
  | .factor _ _ => []
  | .sum vs e => vs ++ e.sumVars
  | .prod es => es.sumVarsL
/-- All Sum-bound variables of an expression sequence. -/
def ExprList.sumVarsL : ExprList → List String
  | .nil => []
  | .cons e tl => e.sumVars ++ tl.sumVarsL
end

/-- Number of Factor leaves of an expression. -/
def Expr.factorCount (e : Expr) : Nat := e.factorSets.length

/-- Total count of variables under Sum operators. -/
def Expr.sumVarCount (e : Expr) : Nat := e.sumVars.length

/-- The factor leaves of an expression as a multiset of
(target-set, conditioning-set) pairs — target and conditioning collections
compared as sets, the comparison the factorization claims use. -/
def Expr.factorMS (e : Expr) : Multiset (Finset String × Finset String) :=
  ↑(e.factorSets.map (fun p => (p.1.toFinset, p.2.toFinset)))

/-- Concatenation of expression sequences. -/
def ExprList.append : ExprList → ExprList → ExprList
  | .nil, l => l
  | .cons e tl, l => .cons e (tl.append l)

/-- Build an expression sequence from a list. -/
def listToEL : List Expr → ExprList
  | [] => .nil
  | e :: l => .cons e (listToEL l)

/-- Modelled from the spec: marginal absorption — remove the unique factor
`p(v | c)` whose sole target is the summed variable `v`, provided `v`
occurs nowhere else in the product (`Σ_v p(v|c) = 1`).  Returns the reduced
sequence, or `none` when `v` is not absorbable. -/
def elimV (v : String) : ExprList → Option ExprList
  | .nil => none
  | .cons (.factor t c) tl =>
      if t = [v] && !(c.contains v) && !(tl.hasVarL v) then some tl
      else if (Expr.factor t c).hasVar v then none
      else (elimV v tl).map (.cons (.factor t c))
  | .cons e tl =>
      if e.hasVar v then none else (elimV v tl).map (.cons e)

/-- First summation variable of `vs` absorbable in `fs`, with the reduced
sequence. -/
def barrenFind (fs : ExprList) : List String → Option (String × ExprList)
  | [] => none
  | v :: rest =>
      match elimV v fs with
      | some fs' => some (v, fs')
      | none => barrenFind fs rest

/-- Merge the first directly nested Product into its parent sequence. -/
def flattenOne : ExprList → Option ExprList
  | .nil => none
  | .cons (.prod inner) tl => some (inner.append tl)
  | .cons e tl => (flattenOne tl).map (.cons e)

/-- Remove the second of the first pair of adjacent duplicate Factors. -/
def dupOne : ExprList → Option ExprList
  | .cons (.factor t c) (.cons (.factor t' c') tl) =>
      if t = t' ∧ c = c' then some (.cons (.factor t c) tl)
      else (dupOne (.cons (.factor t' c') tl)).map (.cons (.factor t c))
  | .cons e tl => (dupOne tl).map (.cons e)
  | .nil => none

/-- The marginal-absorption rewrite at a Sum node whose body is a Product:
absorb the first absorbable summation variable. -/
def tryBarren (vs : List String) (b : Expr) : Option Expr :=
  match b with
  | .prod fs =>
      match barrenFind fs vs with
      | some (v, fs') => some (.sum (vs.erase v) (.prod fs'))
      | none => none
  | _ => none

mutual
/-- Modelled from the spec: one simplification rewrite, leftmost-outermost —
remove an empty-variable Sum, absorb a barren summed factor
(marginal absorption), unwrap a singleton Product, merge a nested Product,
or drop an adjacent duplicate Factor; `none` when the expression is in
normal form. -/
def Expr.step : Expr → Option Expr
  | .factor _ _ => none
  | .sum vs b =>
      if vs = [] then some b
      else
        match tryBarren vs b with
        | some e' => some e'
        | none => (Expr.step b).map (fun b' => .sum vs b')
  | .prod (.cons e .nil) => some e
  | .prod es =>
      match flattenOne es with
      | some es' => some (.prod es')
      | none =>
          match dupOne es with
          | some es' => some (.prod es')
          | none => (ExprList.stepL es).map .prod
/-- First sub-expression of the sequence that admits a rewrite. -/
def ExprList.stepL : ExprList → Option ExprList
  | .nil => none
  | .cons e tl =>
      match Expr.step e with
      | some e' => some (.cons e' tl)
      | none => (ExprList.stepL tl).map (.cons e)
end

/-- Apply simplification rewrites until normal form, with fuel. -/
def stepIter : Nat → Expr → Expr
  | 0, e => e
  | n + 1, e =>
      match Expr.step e with
      | none => e
      | some e' => stepIter n e'

/-- Modelled from the spec: `simplify(Eqn)` — rewrite to normal form
(the expression's size bounds the number of rewrites, as each rewrite
strictly shrinks the tree). -/
def simplify (e : Expr) : Expr := stepIter e.size e

/-- Comma-separated rendering of a variable list. -/
def renderVars (vs : List String) : String := String.intercalate "," vs

mutual
/-- Plain-text rendering of an expression (presentation detail; chosen
format: `p(T|C)` factors, juxtaposed products, `sum_V[...]` sums). -/
def Expr.render : Expr → String
  | .factor t c =>
      "p(" ++ renderVars t ++ (if c.isEmpty then "" else "|" ++ renderVars c) ++ ")"
  | .sum vs e => "sum_" ++ renderVars vs ++ "[" ++ e.render ++ "]"
  | .prod es => es.renderL
/-- Rendering of an expression sequence by juxtaposition. -/
def ExprList.renderL : ExprList → String
  | .nil => ""
  | .cons e tl => e.render ++ tl.renderL
end

/-- A local-Markov conditional-independence statement
`lhs ⊥ rhs | cond`. -/
structure CI where
  lhs : String
  rhs : List String
  cond : List String
deriving DecidableEq

/-- Plain-text rendering of one conditional-independence statement. -/
def CI.render (ci : CI) : String :=
  "(" ++ ci.lhs ++ " _||_ " ++ renderVars ci.rhs ++
    (if ci.cond.isEmpty then "" else " | " ++ renderVars ci.cond) ++ ")"

/-- The chain-rule factors of the nodes `order`, one factor
`p(v | pa(v))` per node, emitted in reverse `order` for display. -/
def chainFactors (G : ADMG) (order : List String) : List Expr :=
  order.reverse.map (fun v => Expr.factor [v] (pa G v))

/-- Wrap a product of factors in a marginalization over `marg` (no Sum node
when `marg` is empty). -/
def margProd (marg : List String) (fs : List Expr) : Expr :=
  if marg.isEmpty then .prod (listToEL fs) else .sum marg (.prod (listToEL fs))

/-- Modelled from the spec: `dagfactor(G, effect_set, simplify)` — the
DAG-only factorization: chain-rule product over a verified topological
order, marginalizing out the nodes not in the effect set, optionally
simplified; returns (human-readable string, expression, validity flag).
The spec's text says the marginalized-out set is the complement of
`effect_set ∪ ancestors(effect_set)`, but the recorded output of
`src/grapl/tutorials/tutorial_02.ipynb` (`dagfactor` on the Symptoms DAG
with effect set Headache, Allergy, Flu yields `sum_Sinus[...]` with
`Sinus` an ancestor of Headache) shows the code marginalizes out the
complement of the effect set alone, which is what this model does. -/
def dagfactorE (G : ADMG) (E : List String) (smp : Bool) : String × Expr × Bool :=
  match topsort G with
  | none => ("not a DAG", .prod .nil, false)
  | some ts =>
      let marg := G.vars.filter (fun v => !(E.contains v))
      let e0 := margProd marg (chainFactors G ts)
      let e1 := if smp then simplify e0 else e0
      ("p(" ++ renderVars E ++ ")=" ++ e1.render, e1, true)

/-- Modelled from the spec: `truncfactor(G, cause_set, effect_set)` — the
truncated factorization (interventional distribution for a DAG): the
chain-rule factors of the non-cause nodes, marginalized over the nodes
outside cause ∪ effect, simplified; always identifiable on a DAG. -/
def truncfactorE (G : ADMG) (X E : List String) : String × Expr × Bool :=
  match topsort G with
  | none => ("not a DAG", .prod .nil, false)
  | some ts =>
      let keep := ts.filter (fun v => !(X.contains v))
      let marg := G.vars.filter (fun v => !(X.contains v) && !(E.contains v))
      let e1 := simplify (margProd marg (chainFactors G keep))
      ("p_" ++ renderVars X ++ "(" ++ renderVars E ++ ")=" ++ e1.render, e1, true)

/-- Modelled from the spec: `localmarkov(G)` — for each node `n` in
topological order, the statement
`n ⊥ (non-descendants of n, excluding parents) | parents(n)`, skipping
trivial (empty right-hand side) statements.  The recorded output of
`src/grapl/tutorials/tutorial_02.ipynb` (`ci, ci_str, is_dag =
algs.localmarkov(G)` with `ci` rendering as the independence display)
shows the statement collection is the first component of the returned
triple and the string the second. -/
def localmarkovE (G : ADMG) : List CI × String × Bool :=
  match topsort G with
  | none => ([], "not a DAG", false)
  | some ts =>
      let cis := ts.filterMap (fun v =>
        let rhs := G.vars.filter (fun u =>
          !((de G [v]).contains u) && !((pa G v).contains u))
        if rhs.isEmpty then none else some ⟨v, rhs, pa G v⟩)
      (cis, String.intercalate "," (cis.map CI.render), true)

/-- Are `u` and `v` joined by a bidirected edge (either stored
orientation)? -/
def bidAdj (G : ADMG) (u v : String) : Bool :=
  G.bid.any (fun e => (e.1 == u && e.2 == v) || (e.1 == v && e.2 == u))

/-- Induced sub-ADMG on the node set `S`. -/
def subG (G : ADMG) (S : List String) : ADMG :=
  ⟨G.vars.filter (S.contains ·),
   G.dir.filter (fun e => S.contains e.1 && S.contains e.2),
   G.bid.filter (fun e => S.contains e.1 && S.contains e.2)⟩

/-- One frontier step of bidirected connectivity inside node set `S`. -/
def disStep (G : ADMG) (S : List String) (T : List String) : List String :=
  T ++ S.filter (fun u => !(T.contains u) && T.any (fun t => bidAdj G t u))

/-- Modelled from the spec: the district (c-component) of `v` within node
set `S` — the bidirected-connectivity class of `v` in the subgraph induced
on `S`. -/
def districtOf (G : ADMG) (S : List String) (v : String) : List String :=
  closeIter (disStep G S) S.length [v]

/-- Modelled from the spec: `districts(S, G)` — the partition of `S` into
maximal bidirected-connectivity classes, in first-member order. -/
def districts (G : ADMG) (S : List String) : List (List String) :=
  (S.foldl
    (fun acc v =>
      if acc.2.contains v then acc
      else (acc.1 ++ [districtOf G S v], acc.2 ++ districtOf G S v))
    (([], []) : List (List String) × List String)).1

/-- Do two node lists hold the same node set? -/
def sameSet (a b : List String) : Bool :=
  a.all (b.contains ·) && b.all (a.contains ·)

/-- Modelled from the spec: is `v` a legal node to fix when the random
(not-yet-fixed) nodes are `R`?  The spec leaves the criterion informal
("keeps the identification tractable"); the standard criterion of the ID
algorithm family it names is used: in the sub-ADMG on `R`, `v`'s
descendant set meets `v`'s district only in `v` itself. -/
def fixableB (G : ADMG) (R : List String) (v : String) : Bool :=
  let Gr := subG G R
  (de Gr [v]).filter (fun u => (districtOf Gr Gr.vars v).contains u) == [v]

/-- Modelled from the spec: depth-first backtracking enumeration of every
complete legal fixing sequence that fixes the random nodes `R` down to the
district `D` (left-to-right, candidates in stored node order). -/
def fixSeqs (G : ADMG) : Nat → List String → List String → List (List String)
  | 0, R, D => if sameSet R D then [[]] else []
  | fuel + 1, R, D =>
      if sameSet R D then [[]]
      else
        ((R.filter (fun v => !(D.contains v) && fixableB G R v)).map
          (fun v =>
            (fixSeqs G fuel (R.filter (fun u => !(u == v))) D).map
              (fun σ => v :: σ))).flatten

/-- Modelled from the spec: the ancestral set the identification engine
works in — `ancestors(effect_set) \ cause_set`. -/
def ancSet (G : ADMG) (X Y : List String) : List String :=
  (an G Y).filter (fun v => !(X.contains v))

/-- Modelled from the spec: the interventional distribution of `X` on `Y`
is identifiable iff every district of `ancestors(Y) \ X` is reachable by
some complete legal fixing sequence. -/
def identifiableB (G : ADMG) (X Y : List String) : Bool :=
  (districts G (ancSet G X Y)).all
    (fun D => !(fixSeqs G G.vars.length G.vars D).isEmpty)

/-- All combinations, one element from each list. -/
def combos {α : Type} : List (List α) → List (List α)
  | [] => [[]]
  | l :: ls => (l.map (fun x => (combos ls).map (fun c => x :: c))).flatten

/-- Keep the element minimizing `f` (first minimum), as a singleton. -/
def pickBy {α : Type} (better : Nat → Nat → Bool) (f : α → Nat) : List α → List α
  | [] => []
  | x :: xs => [xs.foldl (fun acc y => if better (f y) (f acc) then y else acc) x]

/-- Modelled from the spec: the expression produced for one complete
fixing-sequence combination — the chain-rule factors of the ancestral set
`ancestors(Y) \ X`, marginalized over its non-effect part, simplified.
The spec does not define the per-step syntactic form of the accumulated
quotient expression; this model uses the telescoped form, in which each
fixing step cancels the fixed node's own chain factor, so the resulting
expression does not depend on the order within the sequence. -/
def fixExpr (G : ADMG) (X Y : List String) : Expr :=
  let A := ancSet G X Y
  let marg := A.filter (fun v => !(Y.contains v))
  simplify (margProd marg (A.reverse.map (fun v => Expr.factor [v] (pa G v))))

/-- The unified value kinds of the triples the library's operations
return: a display string, an expression, a list of expressions, a
conditional-independence collection, or a boolean flag. -/
inductive RVal where
  | s (v : String)
  | e (v : Expr)
  | es (v : List Expr)
  | cis (v : List CI)
  | b (v : Bool)

/-- Is this returned component a display string? -/
def RVal.isStr : RVal → Bool
  | .s _ => true
  | _ => false

/-- Modelled from the spec: `idfixall(G, cause, effect, mode)` — validates
the query arguments (fail fast on unknown or overlapping cause/effect
nodes), enumerates the complete legal fixing sequences per district of
`ancestors(effect) \ cause`, and returns the triple
(human-readable string, expression list, identifiability flag); mode
`"all"` keeps one expression per complete sequence combination,
`"shortest"` the one with fewest Factor leaves, `"mostmrg"` the one with
most Sum-bound variables, `"random"` a representative (randomness is
modelled by the deterministic first choice).  Non-identifiability is
reported through the flag with an empty list, never as an error. -/
def idfixallE (G : ADMG) (X Y : List String) (mode : String) :
    Except String (RVal × RVal × RVal) :=
  if !(X.all (G.vars.contains ·)) || !(Y.all (G.vars.contains ·)) then
    .error "cause or effect node absent from the graph"
  else if X.any (Y.contains ·) then
    .error "cause and effect sets overlap"
  else
    let Ds := districts G (ancSet G X Y)
    let seqLists := Ds.map (fun D => fixSeqs G G.vars.length G.vars D)
    let base := fixExpr G X Y
    let exprs := (combos seqLists).map (fun _ => base)
    let ident := identifiableB G X Y
    let chosen :=
      if !ident then []
      else if mode = "shortest" then pickBy (fun a b => a < b) Expr.factorCount exprs
      else if mode = "mostmrg" then pickBy (fun a b => b < a) Expr.sumVarCount exprs
      else if mode = "random" then exprs.take 1
      else exprs
    .ok (.s ("p_" ++ renderVars X ++ "(" ++ renderVars Y ++ ")=" ++
              String.intercalate " ; " (chosen.map Expr.render)),
         .es chosen, .b ident)

/-- `dagfactor` as the returned triple of tagged components
(string, expression, flag), the interface shape the spec describes. -/
def dagfactorR (G : ADMG) (E : List String) (smp : Bool) : RVal × RVal × RVal :=
  let r := dagfactorE G E smp
  (.s r.1, .e r.2.1, .b r.2.2)

/-- `truncfactor` as the returned triple of tagged components. -/
def truncfactorR (G : ADMG) (X E : List String) : RVal × RVal × RVal :=
  let r := truncfactorE G X E
  (.s r.1, .e r.2.1, .b r.2.2)

/-- `localmarkov` as the returned triple of tagged components: the
independence collection first, then the string, then the flag (the order
the tutorial's recorded run shows). -/
def localmarkovR (G : ADMG) : RVal × RVal × RVal :=
  let r := localmarkovE G
  (.cis r.1, .s r.2.1, .b r.2.2)

/-- The variable-list line of `ADMG.display()`, as the tutorials record
it: `Vars: ` followed by the stored nodes, comma-separated, in the
internal storage order. -/
def displayVars (G : ADMG) : String :=
  "Vars: " ++ renderVars G.vars

/-- The back-door graph as stored by the first recorded run of
`src/grapl/tutorials/tutorial_01.ipynb` (`Vars: C,Y,X`): same parsed node
set and edges as `backdoorG`, different internal storage order. -/
def backdoorRunA : ADMG :=
  ⟨["C", "Y", "X"], [("C", "X"), ("C", "Y"), ("X", "Y")], []⟩

/-- The back-door graph as stored by the second recorded run of
`src/grapl/tutorials/tutorial_01.ipynb` (`Vars: X,C,Y`). -/
def backdoorRunB : ADMG :=
  ⟨["X", "C", "Y"], [("C", "X"), ("C", "Y"), ("X", "Y")], []⟩

/-- An order on a node list consistent with a graph's directed edges:
every parent strictly precedes its child. -/
def ConsistentWith (l : List String) (G : ADMG) : Prop :=
  ∀ e ∈ G.dir, l.indexOf e.1 < l.indexOf e.2

/-- A graph is acyclic precisely when some total order of its nodes is
consistent with every directed edge. -/
def Acyclic (G : ADMG) : Prop :=
  ∃ l, l.Perm G.vars ∧ ConsistentWith l G

end Grapl

namespace Grapl

/-- C2: on the 3-node back-door DAG (`C -> X; C -> Y; X -> Y`), `isdag`
returns true and `dagfactor` without simplification returns the chain-rule
factorization of the joint whose factor multiset is
`p(Y|X,C), p(X|C), p(C)`, factors compared with target and conditioning
collections as sets; the validity flag is true. -/
theorem backdoor_dagfactor_chain_rule :
    isdag backdoorG = true ∧
    (dagfactorE backdoorG backdoorG.vars false).2.2 = true ∧
    Expr.factorMS (dagfactorE backdoorG backdoorG.vars false).2.1 =
      ({({"Y"}, {"X", "C"}), ({"X"}, {"C"}), ({"C"}, ∅)} :
        Multiset (Finset String × Finset String)) := by
  refine ⟨rfl, rfl, by decide⟩

/-- C3: on the back-door DAG, `truncfactor(G, X, Y)` returns
`p_X(Y) = sum_C[p(Y|X,C)p(C)]` — a Sum over exactly the set `C` whose
body's factor multiset is `p(Y|X,C), p(C)` (target and conditioning
collections as sets) — with the identifiability flag true. -/
theorem backdoor_truncfactor_adjustment :
    (truncfactorE backdoorG ["X"] ["Y"]).2.1 =
      Expr.sum ["C"]
        (.prod (.cons (.factor ["Y"] ["C", "X"]) (.cons (.factor ["C"] []) .nil))) ∧
    Expr.factorMS (truncfactorE backdoorG ["X"] ["Y"]).2.1 =
      ({({"Y"}, {"X", "C"}), ({"C"}, ∅)} : Multiset (Finset String × Finset String)) ∧
    (truncfactorE backdoorG ["X"] ["Y"]).2.2 = true :=
  ⟨rfl, by decide, rfl⟩

/-- C4 counterexample: on the Symptoms DAG with effect set
`Headache, Allergy, Flu`, the simplified `dagfactor` result keeps `Sinus`
under a Sum operator although `Sinus` lies inside
`effect_set ∪ ancestors(effect_set)` — refuting the claim that every
summed variable lies outside that set (the code marginalizes out the
complement of the effect set alone). -/
theorem dagfactor_sums_an_ancestor :
    "Sinus" ∈ (dagfactorE symptomsG ["Headache", "Allergy", "Flu"] true).2.1.sumVars ∧
    "Sinus" ∈ an symptomsG ["Headache", "Allergy", "Flu"] := by
  decide

/-- C5 counterexample: the first component of the triple `localmarkov`
returns is not the human-readable string — the recorded tutorial run shows
(and this model returns) the independence collection first. -/
theorem localmarkov_first_not_string :
    (localmarkovR symptomsG).1.isStr = false :=
  rfl

/-- C5 (amended): every identification/factorization operation returns a
triple of tagged components for every input — `dagfactor`, `truncfactor`
and `idfixall` as (human-readable string, expression(s), boolean flag),
while `localmarkov` returns its independence collection first and the
string second; `idfixall` completes normally on every valid query
(cause/effect known to the graph and non-overlapping), reporting
identifiability in the boolean flag — in particular the non-identifiable
bow query completes with flag `false` and an empty expression list, never
through an exception. -/
theorem operations_return_triples :
    (∀ (G : ADMG) (E : List String) (smp : Bool),
        ∃ s e b, dagfactorR G E smp = (.s s, .e e, .b b)) ∧
    (∀ (G : ADMG) (X E : List String),
        ∃ s e b, truncfactorR G X E = (.s s, .e e, .b b)) ∧
    (∀ (G : ADMG), ∃ cis s b, localmarkovR G = (.cis cis, .s s, .b b)) ∧
    (∀ (G : ADMG) (X Y : List String) (mode : String),
        X.all (G.vars.contains ·) = true →
        Y.all (G.vars.contains ·) = true →
        X.any (Y.contains ·) = false →
        ∃ s es, idfixallE G X Y mode = .ok (.s s, .es es, .b (identifiableB G X Y))) ∧
    idfixallE bowG ["X0"] ["Y0"] "all" = .ok (.s "p_X0(Y0)=", .es [], .b false) := by
  refine ⟨fun G E smp => ⟨_, _, _, rfl⟩,
          fun G X E => ⟨_, _, _, rfl⟩,
          fun G => ⟨_, _, _, rfl⟩,
          fun G X Y mode h1 h2 h3 => ?_,
          rfl⟩
  unfold idfixallE
  rw [h1, h2, h3]
  exact ⟨_, _, rfl⟩

/-- C8 (code bug witness): two internal storage orders of the very same
parsed back-door description — both recorded in
`src/grapl/tutorials/tutorial_01.ipynb` — represent the same node set and
edge list, yet `display` and the `dagfactor` rendering produce different
output strings, so the rendered output is not a function of the input
description alone. -/
theorem display_depends_on_storage_order :
    backdoorRunA.vars.toFinset = backdoorRunB.vars.toFinset ∧
    backdoorRunA.dir = backdoorRunB.dir ∧
    displayVars backdoorRunA ≠ displayVars backdoorRunB ∧
    (dagfactorE backdoorRunA backdoorRunA.vars false).1 ≠
      (dagfactorE backdoorRunB backdoorRunB.vars false).1 := by
  refine ⟨by decide, rfl, by decide, by decide⟩

end Grapl


namespace Grapl

theorem subset_closeIter (f : List String → List String)
    (hf : ∀ T, T ⊆ f T) : ∀ (n : Nat) (T : List String), T ⊆ closeIter f n T := by
  intro n
  induction n with
  | zero => intro T; simp [closeIter]
  | succ n ih => intro T; exact (hf T).trans (ih (f T))

theorem anc_desc_reflexive :
    (∀ (G : ADMG) (S : List String), S ⊆ an G S ∧ S ⊆ de G S) ∧
    (an symptomsG ["Headache"]).toFinset =
      ({"Allergy", "Flu", "Headache", "Sinus"} : Finset String) := by
  refine ⟨fun G S => ⟨?_, ?_⟩, by decide⟩
  · exact subset_closeIter _ (fun T => List.subset_append_left _ _) _ S
  · exact subset_closeIter _ (fun T => List.subset_append_left _ _) _ S

theorem noParentIn_iff (G : ADMG) (rem : List String) (v : String) :
    noParentIn G rem v = true ↔ ∀ e ∈ G.dir, e.2 = v → e.1 ∉ rem := by
  simp [noParentIn, List.any_eq_true, not_exists]

theorem exists_min_indexOf (l : List String) :
    ∀ (rem : List String), rem ≠ [] →
      ∃ m ∈ rem, ∀ u ∈ rem, l.indexOf m ≤ l.indexOf u := by
  intro rem
  induction rem with
  | nil => simp
  | cons a tl ih =>
    intro _
    rcases eq_or_ne tl [] with h | h
    · subst h
      exact ⟨a, by simp, by simp⟩
    · obtain ⟨m, hm, hmin⟩ := ih h
      by_cases hc : l.indexOf a ≤ l.indexOf m
      · refine ⟨a, by simp, ?_⟩
        intro u hu
        rcases List.mem_cons.mp hu with rfl | hu
        · exact le_rfl
        · exact hc.trans (hmin u hu)
      · refine ⟨m, by simp [hm], ?_⟩
        intro u hu
        rcases List.mem_cons.mp hu with rfl | hu
        · exact le_of_not_le hc
        · exact hmin u hu

theorem exists_source (G : ADMG) (l : List String) (hc : ConsistentWith l G)
    (rem : List String) (hne : rem ≠ []) :
    ∃ v ∈ rem, noParentIn G rem v = true := by
  obtain ⟨m, hm, hmin⟩ := exists_min_indexOf l rem hne
  refine ⟨m, hm, (noParentIn_iff G rem m).mpr ?_⟩
  intro e he h2 h1
  have hlt := hc e he
  rw [h2] at hlt
  exact absurd (hmin e.1 h1) (not_le_of_lt hlt)

theorem firstSource_mem {G : ADMG} {rem : List String} {v : String}
    (h : firstSource G rem = some v) : v ∈ rem :=
  List.mem_of_find?_eq_some h

theorem firstSource_prop {G : ADMG} {rem : List String} {v : String}
    (h : firstSource G rem = some v) : noParentIn G rem v = true :=
  List.find?_some h

theorem kahnAux_perm (G : ADMG) :
    ∀ (fuel : Nat) (rem out : List String),
      kahnAux G fuel rem = some out → out.Perm rem := by
  intro fuel
  induction fuel with
  | zero =>
    intro rem out h
    unfold kahnAux at h
    split at h
    · next he =>
      rw [List.isEmpty_iff.mp he] at *
      simp at h
      simp [← h]
    · exact absurd h (by simp)
  | succ n ih =>
    intro rem out h
    unfold kahnAux at h
    split at h
    · next he =>
      rw [List.isEmpty_iff.mp he] at *
      simp at h
      simp [← h]
    · next he =>
      match hfs : firstSource G rem with
      | none => rw [hfs] at h; exact absurd h (by simp)
      | some v =>
        rw [hfs] at h
        obtain ⟨out', hout', rfl⟩ := Option.map_eq_some'.mp h
        have hperm := ih _ _ hout'
        have hv := firstSource_mem hfs
        exact (hperm.cons v).trans (List.perm_cons_erase hv).symm

theorem kahnAux_sound (G : ADMG) (l : List String) (hc : ConsistentWith l G) :
    ∀ (fuel : Nat) (rem : List String), rem.length ≤ fuel →
      ∃ out, kahnAux G fuel rem = some out ∧
        ∀ e ∈ G.dir, e.1 ∈ rem → e.2 ∈ rem →
          out.indexOf e.1 < out.indexOf e.2 := by
  intro fuel
  induction fuel with
  | zero =>
    intro rem hlen
    have : rem = [] := List.length_eq_zero.mp (Nat.le_zero.mp hlen)
    subst this
    exact ⟨[], by simp [kahnAux], by simp⟩
  | succ n ih =>
    intro rem hlen
    by_cases hrem : rem = []
    · subst hrem
      exact ⟨[], by simp [kahnAux], by simp⟩
    · obtain ⟨w, hw, hwp⟩ := exists_source G l hc rem hrem
      have hfs : (firstSource G rem).isSome := by
        unfold firstSource
        rw [List.find?_isSome]
        exact ⟨w, hw, hwp⟩
      obtain ⟨v, hv⟩ := Option.isSome_iff_exists.mp hfs
      have hvm : v ∈ rem := firstSource_mem hv
      have hvp : noParentIn G rem v = true := firstSource_prop hv
      have hlen' : (rem.erase v).length ≤ n := by
        rw [List.length_erase_of_mem hvm]
        have : 1 ≤ rem.length := List.length_pos.mpr hrem
        omega
      obtain ⟨out', hout', hord'⟩ := ih (rem.erase v) hlen'
      have hperm' : out'.Perm (rem.erase v) := kahnAux_perm G n _ _ hout'
      refine ⟨v :: out', ?_, ?_⟩
      · unfold kahnAux
        rw [if_neg (by simpa using hrem), hv]
        simp [hout']
      · intro e he h1 h2
        by_cases h2v : e.2 = v
        · exact absurd h1 ((noParentIn_iff G rem v).mp hvp e he h2v)
        · by_cases h1v : e.1 = v
          · have h2m : e.2 ∈ rem.erase v := List.mem_erase_of_ne h2v |>.mpr h2
            have h2o : e.2 ∈ out' := hperm'.mem_iff.mpr h2m
            rw [h1v, List.indexOf_cons_self]
            rw [List.indexOf_cons_ne _ (by exact fun hh => h2v hh.symm)]
            omega
          · have h1m : e.1 ∈ rem.erase v := List.mem_erase_of_ne h1v |>.mpr h1
            have h2m : e.2 ∈ rem.erase v := List.mem_erase_of_ne h2v |>.mpr h2
            have := hord' e he h1m h2m
            rw [List.indexOf_cons_ne _ (by exact fun hh => h1v hh.symm),
                List.indexOf_cons_ne _ (by exact fun hh => h2v hh.symm)]
            omega

theorem topsort_correct_of_acyclic (G : ADMG) (hwf : WF G) (hac : Acyclic G) :
    isdag G = true ∧
    ∃ ts, topsort G = some ts ∧ ts.Perm G.vars ∧ ConsistentWith ts G := by
  obtain ⟨l, _, hcons⟩ := hac
  obtain ⟨out, hout, hord⟩ := kahnAux_sound G l hcons G.vars.length G.vars le_rfl
  have hts : topsort G = some out := hout
  refine ⟨by simp [isdag, hts], out, hts, kahnAux_perm G _ _ _ hts, ?_⟩
  intro e he
  exact hord e he (hwf.2.1 e he).1 (hwf.2.1 e he).2

theorem localmarkov_mem (G : ADMG) (m n : String) (hdag : isdag G = true)
    (hm : m ∈ G.vars) (hn : n ∈ G.vars)
    (hpm : pa G m = []) (hnd : n ∉ de G [m]) :
    ∃ ci ∈ (localmarkovE G).1, ci.lhs = m ∧ n ∈ ci.rhs := by
  rw [isdag] at hdag
  obtain ⟨ts, hts⟩ := Option.isSome_iff_exists.mp hdag
  have hmts : m ∈ ts := (kahnAux_perm G _ _ _ hts).mem_iff.mpr hm
  have hnr : n ∈ G.vars.filter
      (fun u => !((de G [m]).contains u) && !((pa G m).contains u)) := by
    simp [List.mem_filter, hn, hpm, hnd]
  unfold localmarkovE
  rw [hts]
  refine ⟨⟨m, _, pa G m⟩, ?_, rfl, hnr⟩
  simp only []
  apply List.mem_filterMap.mpr
  refine ⟨m, hmts, ?_⟩
  rw [if_neg ?_]
  intro hemp
  rw [List.isEmpty_iff.mp hemp] at hnr
  exact absurd hnr (List.not_mem_nil n)

end Grapl

namespace Grapl

/-- C6: for every well-formed acyclic graph, `isdag` returns true and
`topsort` returns a permutation of the node set in which the parent of
every directed edge precedes its child; on the Symptoms DAG, the computed
order places Allergy and Flu before Sinus and Sinus before Nose and
Headache. -/
theorem topsort_linearizes :
    (∀ (G : ADMG), WF G → Acyclic G →
      isdag G = true ∧
      ∃ ts, topsort G = some ts ∧ ts.Perm G.vars ∧ ConsistentWith ts G) ∧
    topsort symptomsG = some ["Flu", "Allergy", "Sinus", "Headache", "Nose"] ∧
    ((topsort symptomsG).getD []).indexOf "Allergy" <
      ((topsort symptomsG).getD []).indexOf "Sinus" ∧
    ((topsort symptomsG).getD []).indexOf "Flu" <
      ((topsort symptomsG).getD []).indexOf "Sinus" ∧
    ((topsort symptomsG).getD []).indexOf "Sinus" <
      ((topsort symptomsG).getD []).indexOf "Nose" ∧
    ((topsort symptomsG).getD []).indexOf "Sinus" <
      ((topsort symptomsG).getD []).indexOf "Headache" :=
  ⟨topsort_correct_of_acyclic, by decide, by decide, by decide, by decide, by decide⟩

/-- C10: `localmarkov` emits one statement per node with a non-trivial
right-hand side and does not deduplicate symmetric statements: any two
distinct parentless mutual non-descendants `m`, `n` of a DAG each get a
statement carrying the other on its right-hand side; on the Symptoms DAG
both `(Allergy ⊥ Flu)` and `(Flu ⊥ Allergy)` appear while `Sinus`
(whose non-descendants are exactly its parents) contributes none. -/
theorem localmarkov_symmetric_statements :
    (∀ (G : ADMG) (m n : String), isdag G = true →
        m ∈ G.vars → n ∈ G.vars →
        pa G m = [] → pa G n = [] →
        m ∉ de G [n] → n ∉ de G [m] →
        (∃ ci ∈ (localmarkovE G).1, ci.lhs = m ∧ n ∈ ci.rhs) ∧
        (∃ ci ∈ (localmarkovE G).1, ci.lhs = n ∧ m ∈ ci.rhs)) ∧
    (localmarkovE symptomsG).1.any
      (fun ci => ci.lhs == "Allergy" && ci.rhs.contains "Flu") = true ∧
    (localmarkovE symptomsG).1.any
      (fun ci => ci.lhs == "Flu" && ci.rhs.contains "Allergy") = true ∧
    (localmarkovE symptomsG).1.all (fun ci => !(ci.lhs == "Sinus")) = true := by
  refine ⟨?_, by decide, by decide, by decide⟩
  intro G m n hdag hm hn hpm hpn hmd hnd
  exact ⟨localmarkov_mem G m n hdag hm hn hpm hnd,
         localmarkov_mem G n m hdag hn hm hpn hmd⟩

end Grapl


namespace Grapl

theorem ExprList.append_size : ∀ (a b : ExprList), (a.append b).size = a.size + b.size
  | .nil, b => by simp [ExprList.append, ExprList.size]
  | .cons e tl, b => by
      simp [ExprList.append, ExprList.size, ExprList.append_size tl b]
      omega

theorem Expr.size_pos : ∀ (e : Expr), 0 < e.size
  | .factor _ _ => by simp [Expr.size]
  | .sum _ e => by simp [Expr.size]
  | .prod _ => by simp [Expr.size]

theorem elimV_size (v : String) :
    ∀ (l l' : ExprList), elimV v l = some l' → l'.size < l.size
  | .nil, l', h => by simp [elimV] at h
  | .cons (.factor t c) tl, l', h => by
      simp only [elimV] at h
      split_ifs at h with h1 h2
      · cases h
        simp [ExprList.size, Expr.size]
      · rcases helim : elimV v tl with _ | tl' <;> rw [helim] at h <;> simp at h
        subst h
        have := elimV_size v tl tl' helim
        simp [ExprList.size]
        omega
  | .cons (.prod p) tl, l', h => by
      simp only [elimV] at h
      split_ifs at h with h1
      rcases helim : elimV v tl with _ | tl' <;> rw [helim] at h <;> simp at h
      subst h
      have := elimV_size v tl tl' helim
      simp [ExprList.size]
      omega
  | .cons (.sum vs b) tl, l', h => by
      simp only [elimV] at h
      split_ifs at h with h1
      rcases helim : elimV v tl with _ | tl' <;> rw [helim] at h <;> simp at h
      subst h
      have := elimV_size v tl tl' helim
      simp [ExprList.size]
      omega

theorem barrenFind_spec (fs : ExprList) :
    ∀ (vs : List String) (v : String) (fs' : ExprList),
      barrenFind fs vs = some (v, fs') → v ∈ vs ∧ elimV v fs = some fs' := by
  intro vs
  induction vs with
  | nil => intro v fs' h; simp [barrenFind] at h
  | cons a rest ih =>
    intro v fs' h
    rw [barrenFind] at h
    rcases helim : elimV a fs with _ | fs'' <;> rw [helim] at h
    · obtain ⟨hv, he⟩ := ih v fs' h
      exact ⟨List.mem_cons_of_mem a hv, he⟩
    · simp at h
      obtain ⟨rfl, rfl⟩ := h
      exact ⟨List.mem_cons_self a rest, helim⟩

theorem flattenOne_size :
    ∀ (l l' : ExprList), flattenOne l = some l' → l'.size < l.size
  | .nil, l', h => by simp [flattenOne] at h
  | .cons (.prod inner) tl, l', h => by
      simp only [flattenOne] at h
      cases h
      simp [ExprList.size, Expr.size, ExprList.append_size]
  | .cons (.factor t c) tl, l', h => by
      simp only [flattenOne] at h
      rcases hf : flattenOne tl with _ | tl' <;> rw [hf] at h <;> simp at h
      subst h
      have := flattenOne_size tl tl' hf
      simp [ExprList.size]
      omega
  | .cons (.sum vs b) tl, l', h => by
      simp only [flattenOne] at h
      rcases hf : flattenOne tl with _ | tl' <;> rw [hf] at h <;> simp at h
      subst h
      have := flattenOne_size tl tl' hf
      simp [ExprList.size]
      omega

theorem dupOne_size :
    ∀ (l l' : ExprList), dupOne l = some l' → l'.size < l.size
  | .nil, l', h => by simp [dupOne] at h
  | .cons (.factor t c) (.cons (.factor t' c') tl), l', h => by
      simp only [dupOne] at h
      split_ifs at h with h1
      · cases h
        simp [ExprList.size, Expr.size]
      · rcases hf : dupOne (.cons (.factor t' c') tl) with _ | tl' <;>
          rw [hf] at h <;> simp at h
        subst h
        have := dupOne_size (.cons (.factor t' c') tl) tl' hf
        simp [ExprList.size] at *
        omega
  | .cons e .nil, l', h => by
      rcases e <;> simp [dupOne] at h
  | .cons (.factor t c) (.cons (.prod p) tl), l', h => by
      simp only [dupOne] at h
      rcases hf : dupOne tl with _ | tl' <;> rw [hf] at h <;> simp at h
      subst h
      have := dupOne_size tl tl' hf
      simp [ExprList.size]
      omega
  | .cons (.factor t c) (.cons (.sum vs b) tl), l', h => by
      simp only [dupOne] at h
      rcases hf : dupOne tl with _ | tl' <;> rw [hf] at h <;> simp at h
      subst h
      have := dupOne_size tl tl' hf
      simp [ExprList.size]
      omega
  | .cons (.prod p) tl, l', h => by
      simp only [dupOne] at h
      rcases hf : dupOne tl with _ | tl' <;> rw [hf] at h <;> simp at h
      subst h
      have := dupOne_size tl tl' hf
      simp [ExprList.size]
      omega
  | .cons (.sum vs b) tl, l', h => by
      simp only [dupOne] at h
      rcases hf : dupOne tl with _ | tl' <;> rw [hf] at h <;> simp at h
      subst h
      have := dupOne_size tl tl' hf
      simp [ExprList.size]
      omega

theorem tryBarren_size (vs : List String) (b : Expr) (e' : Expr)
    (h : tryBarren vs b = some e') : e'.size < (Expr.sum vs b).size := by
  rcases b with ⟨t, c⟩ | fs | ⟨vs2, b2⟩ <;> simp only [tryBarren] at h
  · simp at h
  · rcases hbf : barrenFind fs vs with _ | ⟨v, fs'⟩ <;> rw [hbf] at h <;> simp at h
    subst h
    have := elimV_size v fs fs' (barrenFind_spec fs vs v fs' hbf).2
    simp [Expr.size, ExprList.size]
    omega
  · simp at h

mutual
theorem Expr.step_size : ∀ (e e' : Expr), e.step = some e' → e'.size < e.size
  | .factor t c, e', h => by simp [Expr.step] at h
  | .sum vs b, e', h => by
      simp only [Expr.step] at h
      split_ifs at h with h1
      · cases h
        simp [Expr.size]
      · rcases htb : tryBarren vs b with _ | e2 <;> rw [htb] at h
        · rcases hst : b.step with _ | b2 <;> rw [hst] at h <;> simp at h
          subst h
          have := Expr.step_size b b2 hst
          simp [Expr.size]
          omega
        · simp at h
          subst h
          exact tryBarren_size vs b e2 htb
  | .prod .nil, e', h => by
      simp [Expr.step, flattenOne, dupOne, ExprList.stepL] at h
  | .prod (.cons e0 .nil), e', h => by
      rw [Expr.step] at h
      cases h
      simp [Expr.size, ExprList.size]
  | .prod (.cons e0 (.cons e1 tl)), e', h => by
      simp only [Expr.step] at h
      rcases hfl : flattenOne (.cons e0 (.cons e1 tl)) with _ | l1 <;> rw [hfl] at h
      · rcases hdp : dupOne (.cons e0 (.cons e1 tl)) with _ | l2 <;> rw [hdp] at h
        · rcases hst : ExprList.stepL (.cons e0 (.cons e1 tl)) with _ | l3 <;>
            rw [hst] at h <;> simp at h
          subst h
          have := ExprList.stepL_size _ l3 hst
          simp [Expr.size]
          omega
        · simp at h
          subst h
          have := dupOne_size _ l2 hdp
          simp [Expr.size]
          omega
      · simp at h
        subst h
        have := flattenOne_size _ l1 hfl
        simp [Expr.size]
        omega
theorem ExprList.stepL_size : ∀ (l l' : ExprList), l.stepL = some l' → l'.size < l.size
  | .nil, l', h => by simp [ExprList.stepL] at h
  | .cons e tl, l', h => by
      simp only [ExprList.stepL] at h
      rcases hst : e.step with _ | e2 <;> rw [hst] at h
      · rcases hstl : tl.stepL with _ | tl2 <;> rw [hstl] at h <;> simp at h
        subst h
        have := ExprList.stepL_size tl tl2 hstl
        simp [ExprList.size]
        omega
      · simp at h
        subst h
        have := Expr.step_size e e2 hst
        simp [ExprList.size]
        omega
end

theorem stepIter_of_none {e : Expr} (h : e.step = none) :
    ∀ (n : Nat), stepIter n e = e := by
  intro n
  cases n with
  | zero => rfl
  | succ n => simp [stepIter, h]

theorem stepIter_normal : ∀ (n : Nat) (e : Expr), e.size ≤ n →
    (stepIter n e).step = none := by
  intro n
  induction n with
  | zero =>
    intro e hle
    exact absurd (Expr.size_pos e) (by omega)
  | succ n ih =>
    intro e hle
    rcases hst : e.step with _ | e2
    · rw [stepIter_of_none hst]
      exact hst
    · have hlt := Expr.step_size e e2 hst
      have : stepIter (n + 1) e = stepIter n e2 := by simp [stepIter, hst]
      rw [this]
      exact ih e2 (by omega)

/-- C7: `simplify` is idempotent — for every expression,
`simplify (simplify E)` is structurally equal to `simplify E` (exact tree
equality, which is stronger than equality up to Product-term
reordering). -/
theorem simplify_idempotent : ∀ (e : Expr), simplify (simplify e) = simplify e := by
  intro e
  have hn : (simplify e).step = none := stepIter_normal e.size e le_rfl
  unfold simplify
  exact stepIter_of_none hn _

end Grapl


namespace Grapl

theorem ExprList.append_sumVarsL :
    ∀ (a b : ExprList), (a.append b).sumVarsL = a.sumVarsL ++ b.sumVarsL
  | .nil, b => by simp [ExprList.append, ExprList.sumVarsL]
  | .cons e tl, b => by
      simp [ExprList.append, ExprList.sumVarsL, ExprList.append_sumVarsL tl b]

theorem elimV_sumVars (v : String) :
    ∀ (l l' : ExprList), elimV v l = some l' →
      ∀ u, u ∈ l'.sumVarsL → u ∈ l.sumVarsL
  | .nil, l', h => by simp [elimV] at h
  | .cons (.factor t c) tl, l', h => by
      simp only [elimV] at h
      split_ifs at h with h1 h2
      · cases h
        intro u hu
        simp [ExprList.sumVarsL, Expr.sumVars]
        exact hu
      · rcases helim : elimV v tl with _ | tl' <;> rw [helim] at h <;> simp at h
        subst h
        intro u hu
        simp [ExprList.sumVarsL, Expr.sumVars] at hu ⊢
        exact elimV_sumVars v tl tl' helim u hu
  | .cons (.prod p) tl, l', h => by
      simp only [elimV] at h
      split_ifs at h with h1
      rcases helim : elimV v tl with _ | tl' <;> rw [helim] at h <;> simp at h
      subst h
      intro u hu
      simp [ExprList.sumVarsL] at hu ⊢
      rcases hu with hu | hu
      · exact Or.inl hu
      · exact Or.inr (elimV_sumVars v tl tl' helim u hu)
  | .cons (.sum vs b) tl, l', h => by
      simp only [elimV] at h
      split_ifs at h with h1
      rcases helim : elimV v tl with _ | tl' <;> rw [helim] at h <;> simp at h
      subst h
      intro u hu
      simp [ExprList.sumVarsL] at hu ⊢
      rcases hu with hu | hu
      · exact Or.inl hu
      · exact Or.inr (elimV_sumVars v tl tl' helim u hu)

theorem flattenOne_sumVars :
    ∀ (l l' : ExprList), flattenOne l = some l' →
      ∀ u, u ∈ l'.sumVarsL → u ∈ l.sumVarsL
  | .nil, l', h => by simp [flattenOne] at h
  | .cons (.prod inner) tl, l', h => by
      simp only [flattenOne] at h
      cases h
      intro u hu
      simp [ExprList.append_sumVarsL, ExprList.sumVarsL, Expr.sumVars] at hu ⊢
      exact hu
  | .cons (.factor t c) tl, l', h => by
      simp only [flattenOne] at h
      rcases hf : flattenOne tl with _ | tl' <;> rw [hf] at h <;> simp at h
      subst h
      intro u hu
      simp [ExprList.sumVarsL, Expr.sumVars] at hu ⊢
      exact flattenOne_sumVars tl tl' hf u hu
  | .cons (.sum vs b) tl, l', h => by
      simp only [flattenOne] at h
      rcases hf : flattenOne tl with _ | tl' <;> rw [hf] at h <;> simp at h
      subst h
      intro u hu
      simp [ExprList.sumVarsL] at hu ⊢
      rcases hu with hu | hu
      · exact Or.inl hu
      · exact Or.inr (flattenOne_sumVars tl tl' hf u hu)

theorem dupOne_sumVars :
    ∀ (l l' : ExprList), dupOne l = some l' →
      ∀ u, u ∈ l'.sumVarsL → u ∈ l.sumVarsL
  | .nil, l', h => by simp [dupOne] at h
  | .cons (.factor t c) (.cons (.factor t' c') tl), l', h => by
      simp only [dupOne] at h
      split_ifs at h with h1
      · cases h
        intro u hu
        simp [ExprList.sumVarsL, Expr.sumVars] at hu ⊢
        exact hu
      · rcases hf : dupOne (.cons (.factor t' c') tl) with _ | tl' <;>
          rw [hf] at h <;> simp at h
        subst h
        intro u hu
        simp [ExprList.sumVarsL, Expr.sumVars] at hu ⊢
        exact dupOne_sumVars _ tl' hf u hu
  | .cons e .nil, l', h => by
      rcases e <;> simp [dupOne] at h
  | .cons (.factor t c) (.cons (.prod p) tl), l', h => by
      simp only [dupOne] at h
      rcases hf : dupOne tl with _ | tl' <;> rw [hf] at h <;> simp at h
      subst h
      intro u hu
      simp [ExprList.sumVarsL, Expr.sumVars] at hu ⊢
      rcases hu with hu | hu
      · exact Or.inl hu
      · exact Or.inr (dupOne_sumVars tl tl' hf u hu)
  | .cons (.factor t c) (.cons (.sum vs b) tl), l', h => by
      simp only [dupOne] at h
      rcases hf : dupOne tl with _ | tl' <;> rw [hf] at h <;> simp at h
      subst h
      intro u hu
      simp [ExprList.sumVarsL, Expr.sumVars] at hu ⊢
      rcases hu with hu | hu | hu
      · exact Or.inl hu
      · exact Or.inr (Or.inl hu)
      · exact Or.inr (Or.inr (dupOne_sumVars tl tl' hf u hu))
  | .cons (.prod p) tl, l', h => by
      simp only [dupOne] at h
      rcases hf : dupOne tl with _ | tl' <;> rw [hf] at h <;> simp at h
      subst h
      intro u hu
      simp [ExprList.sumVarsL] at hu ⊢
      rcases hu with hu | hu
      · exact Or.inl hu
      · exact Or.inr (dupOne_sumVars tl tl' hf u hu)
  | .cons (.sum vs b) tl, l', h => by
      simp only [dupOne] at h
      rcases hf : dupOne tl with _ | tl' <;> rw [hf] at h <;> simp at h
      subst h
      intro u hu
      simp [ExprList.sumVarsL] at hu ⊢
      rcases hu with hu | hu
      · exact Or.inl hu
      · exact Or.inr (dupOne_sumVars tl tl' hf u hu)

theorem tryBarren_sumVars (vs : List String) (b : Expr) (e' : Expr)
    (h : tryBarren vs b = some e') :
    ∀ u, u ∈ e'.sumVars → u ∈ (Expr.sum vs b).sumVars := by
  rcases b with ⟨t, c⟩ | fs | ⟨vs2, b2⟩ <;> simp only [tryBarren] at h
  · simp at h
  · rcases hbf : barrenFind fs vs with _ | ⟨v, fs'⟩ <;> rw [hbf] at h <;> simp at h
    subst h
    intro u hu
    simp [Expr.sumVars] at hu ⊢
    rcases hu with hu | hu
    · exact Or.inl (List.mem_of_mem_erase hu)
    · exact Or.inr (elimV_sumVars v fs fs' (barrenFind_spec fs vs v fs' hbf).2 u hu)
  · simp at h

mutual
theorem Expr.step_sumVars : ∀ (e e' : Expr), e.step = some e' →
    ∀ u, u ∈ e'.sumVars → u ∈ e.sumVars
  | .factor t c, e', h => by simp [Expr.step] at h
  | .sum vs b, e', h => by
      simp only [Expr.step] at h
      split_ifs at h with h1
      · cases h
        intro u hu
        simp [Expr.sumVars]
        exact Or.inr hu
      · rcases htb : tryBarren vs b with _ | e2 <;> rw [htb] at h
        · rcases hst : b.step with _ | b2 <;> rw [hst] at h <;> simp at h
          subst h
          intro u hu
          simp [Expr.sumVars] at hu ⊢
          rcases hu with hu | hu
          · exact Or.inl hu
          · exact Or.inr (Expr.step_sumVars b b2 hst u hu)
        · simp at h
          subst h
          exact tryBarren_sumVars vs b e2 htb
  | .prod .nil, e', h => by
      simp [Expr.step, flattenOne, dupOne, ExprList.stepL] at h
  | .prod (.cons e0 .nil), e', h => by
      rw [Expr.step] at h
      cases h
      intro u hu
      simp [Expr.sumVars, ExprList.sumVarsL]
      exact hu
  | .prod (.cons e0 (.cons e1 tl)), e', h => by
      simp only [Expr.step] at h
      rcases hfl : flattenOne (.cons e0 (.cons e1 tl)) with _ | l1 <;> rw [hfl] at h
      · rcases hdp : dupOne (.cons e0 (.cons e1 tl)) with _ | l2 <;> rw [hdp] at h
        · rcases hst : ExprList.stepL (.cons e0 (.cons e1 tl)) with _ | l3 <;>
            rw [hst] at h <;> simp at h
          subst h
          intro u hu
          simp [Expr.sumVars] at hu ⊢
          exact ExprList.stepL_sumVars _ l3 hst u hu
        · simp at h
          subst h
          intro u hu
          simp [Expr.sumVars] at hu ⊢
          exact dupOne_sumVars _ l2 hdp u hu
      · simp at h
        subst h
        intro u hu
        simp [Expr.sumVars] at hu ⊢
        exact flattenOne_sumVars _ l1 hfl u hu
theorem ExprList.stepL_sumVars : ∀ (l l' : ExprList), l.stepL = some l' →
    ∀ u, u ∈ l'.sumVarsL → u ∈ l.sumVarsL
  | .nil, l', h => by simp [ExprList.stepL] at h
  | .cons e tl, l', h => by
      simp only [ExprList.stepL] at h
      rcases hst : e.step with _ | e2 <;> rw [hst] at h
      · rcases hstl : tl.stepL with _ | tl2 <;> rw [hstl] at h <;> simp at h
        subst h
        intro u hu
        simp [ExprList.sumVarsL] at hu ⊢
        rcases hu with hu | hu
        · exact Or.inl hu
        · exact Or.inr (ExprList.stepL_sumVars tl tl2 hstl u hu)
      · simp at h
        subst h
        intro u hu
        simp [ExprList.sumVarsL] at hu ⊢
        rcases hu with hu | hu
        · exact Or.inl (Expr.step_sumVars e e2 hst u hu)
        · exact Or.inr hu
end

theorem stepIter_sumVars : ∀ (n : Nat) (e : Expr) (u : String),
    u ∈ (stepIter n e).sumVars → u ∈ e.sumVars := by
  intro n
  induction n with
  | zero => intro e u hu; exact hu
  | succ n ih =>
    intro e u hu
    rcases hst : e.step with _ | e2
    · rw [stepIter_of_none hst] at hu
      exact hu
    · rw [show stepIter (n + 1) e = stepIter n e2 by simp [stepIter, hst]] at hu
      exact Expr.step_sumVars e e2 hst u (ih e2 u hu)

theorem simplify_sumVars (e : Expr) (u : String)
    (hu : u ∈ (simplify e).sumVars) : u ∈ e.sumVars :=
  stepIter_sumVars e.size e u hu

theorem listToEL_factors_sumVars (g : String → List String) :
    ∀ (xs : List String),
      (listToEL (xs.map (fun v => Expr.factor [v] (g v)))).sumVarsL = [] := by
  intro xs
  induction xs with
  | nil => simp [listToEL, ExprList.sumVarsL]
  | cons a tl ih => simp [listToEL, ExprList.sumVarsL, Expr.sumVars, ih]

theorem margProd_sumVars (marg : List String) (G : ADMG) (order : List String) :
    ∀ u, u ∈ (margProd marg (chainFactors G order)).sumVars → u ∈ marg := by
  intro u hu
  unfold margProd chainFactors at hu
  have hz := listToEL_factors_sumVars (pa G) order.reverse
  split_ifs at hu with h1
  · simp only [Expr.sumVars] at hu
    rw [hz] at hu
    simp at hu
  · simp only [Expr.sumVars] at hu
    rw [hz] at hu
    simp at hu
    exact hu

/-- C4 (amended): `dagfactor(G, effect_set, simplify)` builds the
chain-rule factorization and marginalizes out exactly the nodes not in the
effect set (then optionally simplifies), so every variable appearing under
a Sum operator in the result lies outside the effect set; on the Symptoms
DAG with effect set Headache, Allergy, Flu the summed variables are
exactly `Sinus` (an ancestor of the effect set, inside the unsimplified
marginalization set `Sinus, Nose`). -/
theorem dagfactor_sums_only_non_effect :
    (∀ (G : ADMG) (E : List String) (smp : Bool) (v : String),
        v ∈ (dagfactorE G E smp).2.1.sumVars → v ∉ E) ∧
    (dagfactorE symptomsG ["Headache", "Allergy", "Flu"] true).2.1.sumVars =
      ["Sinus"] := by
  refine ⟨?_, by decide⟩
  intro G E smp v hv
  unfold dagfactorE at hv
  rcases hts : topsort G with _ | ts <;> rw [hts] at hv <;> simp only [] at hv
  · simp [Expr.sumVars, ExprList.sumVarsL] at hv
  · have hv0 : v ∈ (margProd (G.vars.filter (fun u => !(E.contains u)))
        (chainFactors G ts)).sumVars := by
      rcases smp <;> simp only [Bool.false_eq_true, if_false, if_true] at hv
      · exact hv
      · exact simplify_sumVars _ v hv
    have := margProd_sumVars _ G ts v hv0
    simp [List.mem_filter] at this
    exact this.2

end Grapl
